import Mathlib

/-!
Verification of the memory-management and task-scheduling core of an
Sv39-style teaching kernel (page tables, PID allocation, kernel-stack
placement, task timing, processor state).

The Rust sources are shallowly embedded: machine integers (usize, u8)
become Nat with explicit reductions modulo 2 ^ 64 / 2 ^ 8 where overflow or
truncation matters; physical memory, which the kernel accesses through raw
page-number indexing, becomes an explicit function from (physical page
number, entry index) to page-table entries; panics (assert / unwrap
failures) become Option results, with none meaning a fatal error.
-/

/-! ## Page-table entries (src/os/src/mm/page_table.rs) -/

namespace Kernel

/-- Flag-bit constants of a page-table entry, from the bitflags block
in page_table.rs: V, R, W, X, U, G, A, D occupy bits 0 through 7 of a u8. -/
def PTEFlags.V : Nat := 1

/-- Readable bit, 1 <<< 1. -/
def PTEFlags.R : Nat := 2

/-- Writable bit, 1 <<< 2. -/
def PTEFlags.W : Nat := 4

/-- Executable bit, 1 <<< 3. -/
def PTEFlags.X : Nat := 8

/-- PTEFlags::empty() : no bits set. -/
def PTEFlags.emptyFlags : Nat := 0

/-- A page-table entry is one machine word (usize), `pub bits: usize`. -/
structure PageTableEntry where
  bits : Nat
  deriving DecidableEq, Repr

/-- Rust `PageTableEntry::new(ppn, flags)`: `bits = ppn.0 << 10 | flags.bits as usize`.
The left shift is on usize, hence taken modulo 2 ^ 64. -/
def PageTableEntry.new (ppn flags : Nat) : PageTableEntry :=
  ⟨ppn * 2 ^ 10 % 2 ^ 64 ||| flags⟩

/-- Rust `PageTableEntry::empty()`: all-zero bits. -/
def PageTableEntry.empty : PageTableEntry := ⟨0⟩

/-- Rust `PageTableEntry::ppn()`: `bits >> 10 & ((1usize << 44) - 1)`; the mask
with 2 ^ 44 - 1 is the reduction modulo 2 ^ 44. -/
def PageTableEntry.ppn (pte : PageTableEntry) : Nat :=
  pte.bits / 2 ^ 10 % 2 ^ 44

/-- Rust `PageTableEntry::flags()`: `PTEFlags::from_bits(bits as u8).unwrap()`.
The u8 cast keeps the low 8 bits; from_bits always succeeds because all
eight flag bits are defined, so no Option is needed here. -/
def PageTableEntry.flags (pte : PageTableEntry) : Nat :=
  pte.bits % 2 ^ 8

/-- Rust `PageTableEntry::is_valid()`: `(flags() & PTEFlags::V) != PTEFlags::empty()`. -/
def PageTableEntry.is_valid (pte : PageTableEntry) : Bool :=
  pte.flags &&& PTEFlags.V != PTEFlags.emptyFlags

/-- Rust `PageTableEntry::readable()`: `(flags() & PTEFlags::R) != PTEFlags::empty()`. -/
def PageTableEntry.readable (pte : PageTableEntry) : Bool :=
  pte.flags &&& PTEFlags.R != PTEFlags.emptyFlags

/-- Rust `PageTableEntry::writable()`: `(flags() & PTEFlags::W) != PTEFlags::empty()`. -/
def PageTableEntry.writable (pte : PageTableEntry) : Bool :=
  pte.flags &&& PTEFlags.W != PTEFlags.emptyFlags

/-- Rust `PageTableEntry::executable()`: `(flags() & PTEFlags::X) != PTEFlags::empty()`. -/
def PageTableEntry.executable (pte : PageTableEntry) : Bool :=
  pte.flags &&& PTEFlags.X != PTEFlags.emptyFlags

end Kernel

/-! ## Physical memory, frame allocator, page table (src/os/src/mm/page_table.rs) -/

namespace Kernel

/-- Physical memory seen as page-table storage: the entry a raw access
`ppn.get_pte_array()[idx]` reads at physical page `ppn`, index `idx`.
The kernel manipulates this store through raw pointers; the embedding
threads it explicitly. -/
def Mem : Type := Nat → Nat → PageTableEntry

/-- Writing one page-table entry in physical memory (`*pte = ...`). -/
def Mem.write (m : Mem) (p i : Nat) (e : PageTableEntry) : Mem :=
  fun q j => if q = p ∧ j = i then e else m q j

/-- Zero-filling one whole physical page (every entry of page p becomes
the all-zero entry). -/
def Mem.zero (m : Mem) (p : Nat) : Mem :=
  fun q j => if q = p then PageTableEntry.empty else m q j

/-- Machine state outside any one page table: the physical memory and the
state of the frame allocator. -/
structure MachineState where
  mem : Mem
  next_frame : Nat

/-- Modelled from the spec: `frame_alloc` lives in mm/frame_allocator.rs,
which is not under src/. Per the spec, the frame allocator hands out an
owned, previously unused physical frame (exhaustion is fatal and outside
this model), and a freshly created page-table node never holds a dangling
entry, so the handed-out frame is zero-filled. Modelled as a counter that
returns the next unused page number after clearing that page. -/
def frame_alloc (s : MachineState) : Nat × MachineState :=
  (s.next_frame, ⟨s.mem.zero s.next_frame, s.next_frame + 1⟩)

/-- Rust `PageTable`: the owned root frame plus the list of frames this table
caused to be allocated (`frames: Vec<FrameTracker>`, kept as the list of
their page numbers). -/
structure PageTable where
  root_ppn : Nat
  frames : List Nat

/-- Rust `PageTable::new()`: allocate a fresh root frame and own it. -/
def PageTable.new (s : MachineState) : MachineState × PageTable :=
  let f := frame_alloc s
  (f.2, ⟨f.1, [f.1]⟩)

/-- Rust `PageTable::from_token(satp)`: non-owning view; root page number is the
low 44 bits of the token (`satp & ((1usize << 44) - 1)`), no owned frames. -/
def PageTable.from_token (satp : Nat) : PageTable :=
  ⟨satp % 2 ^ 44, []⟩

/-- Rust `PageTable::token()`: `8usize << 60 | root_ppn`. -/
def PageTable.token (pt : PageTable) : Nat :=
  8 * 2 ^ 60 ||| pt.root_ppn

/-- Modelled from the spec: `VirtPageNum::indexes` lives in mm/address.rs,
which is not under src/. Per the spec, a virtual page number decomposes
into exactly three 9-bit index fields (root, middle, leaf):
idx0 = bits 18..27, idx1 = bits 9..18, idx2 = bits 0..9. -/
def VirtPageNum.indexes (vpn : Nat) : Nat × Nat × Nat :=
  (vpn / 2 ^ 18 % 2 ^ 9, vpn / 2 ^ 9 % 2 ^ 9, vpn % 2 ^ 9)

/-- One non-leaf iteration of the `find_pte_create` walk at node page p,
index i: if the entry is invalid, allocate a fresh frame, store
`PageTableEntry::new(frame.ppn, PTEFlags::V)` in the entry and push the
frame onto the owned frame list of the table; otherwise leave everything unchanged. -/
def step_create (s : MachineState) (pt : PageTable) (p i : Nat) :
    MachineState × PageTable :=
  if (s.mem p i).is_valid then (s, pt)
  else
    let f := frame_alloc s
    (⟨(f.2.mem).write p i (PageTableEntry.new f.1 PTEFlags.V), f.2.next_frame⟩,
     ⟨pt.root_ppn, pt.frames ++ [f.1]⟩)

/-- Rust `PageTable::find_pte_create(vpn)`: walk the three index levels from the
root; the first two levels lazily create invalid intermediate entries
(marked valid only); the loop always reaches i = 2 and returns the location
(page, index) of the leaf slot, so the source-level Option is always Some
and is omitted here. After each non-leaf step the walk continues at
`pte.ppn()` re-read from the (possibly just written) entry. -/
def PageTable.find_pte_create (s : MachineState) (pt : PageTable) (vpn : Nat) :
    MachineState × PageTable × Nat × Nat :=
  let idxs := VirtPageNum.indexes vpn
  let r1 := step_create s pt pt.root_ppn idxs.1
  let ppn1 := ((r1.1.mem) pt.root_ppn idxs.1).ppn
  let r2 := step_create r1.1 r1.2 ppn1 idxs.2.1
  let ppn2 := ((r2.1.mem) ppn1 idxs.2.1).ppn
  (r2.1, r2.2, ppn2, idxs.2.2)

/-- Rust `PageTable::find_pte(vpn)`: read-only walk; at each of the two non-leaf
levels an invalid entry aborts with None; the leaf slot location is
returned without checking the leaf entry itself. -/
def PageTable.find_pte (m : Mem) (pt : PageTable) (vpn : Nat) :
    Option (Nat × Nat) :=
  let idxs := VirtPageNum.indexes vpn
  let pte0 := m pt.root_ppn idxs.1
  if pte0.is_valid then
    let pte1 := m pte0.ppn idxs.2.1
    if pte1.is_valid then some (pte1.ppn, idxs.2.2) else none
  else none

/-- Rust `PageTable::translate(vpn)`: `find_pte(vpn).map(|pte| *pte)`. -/
def PageTable.translate (m : Mem) (pt : PageTable) (vpn : Nat) :
    Option PageTableEntry :=
  (pt.find_pte m vpn).map fun loc => m loc.1 loc.2

/-- Rust `PageTable::map(vpn, ppn, flags)`: find-or-create the leaf slot; the
assert `!pte.is_valid()` makes mapping an already-valid leaf fatal (none);
otherwise store `PageTableEntry::new(ppn, flags | PTEFlags::V)`. -/
def PageTable.map (s : MachineState) (pt : PageTable) (vpn ppn flags : Nat) :
    Option (MachineState × PageTable) :=
  let r := pt.find_pte_create s vpn
  let p := r.2.2.1
  let i := r.2.2.2
  if ((r.1.mem) p i).is_valid then none
  else
    some (⟨(r.1.mem).write p i (PageTableEntry.new ppn (flags ||| PTEFlags.V)),
           r.1.next_frame⟩, r.2.1)

/-- Rust `PageTable::unmap(vpn)`: read-only walk (unwrap of find_pte: a missing
path is fatal); the assert `pte.is_valid()` makes unmapping an invalid leaf
fatal; otherwise the leaf is cleared to the empty entry. No frame is
allocated or released. -/
def PageTable.unmap (s : MachineState) (pt : PageTable) (vpn : Nat) :
    Option (MachineState × PageTable) :=
  match pt.find_pte s.mem vpn with
  | none => none
  | some loc =>
    if ((s.mem) loc.1 loc.2).is_valid then
      some (⟨(s.mem).write loc.1 loc.2 PageTableEntry.empty, s.next_frame⟩, pt)
    else none

end Kernel

/-! ## Layout constants and the byte-range translator -/

namespace Kernel

/-- Modelled from the spec: PAGE_SIZE lives in config.rs, which is not
under src/; the spec fixes 4KiB pages. -/
def PAGE_SIZE : Nat := 4096

/-- Modelled from the spec: KERNEL_STACK_SIZE lives in config.rs, which is
not under src/; the spec fixes a kernel-stack size constant consumed by this
core; a two-page stack is used here. -/
def KERNEL_STACK_SIZE : Nat := 4096 * 2

/-- Modelled from the spec: TRAMPOLINE lives in config.rs, which is not
under src/; the spec describes it as a sentinel top-of-kernel-address-space
virtual address; the topmost page boundary of the 64-bit space is used. -/
def TRAMPOLINE : Nat := 2 ^ 64 - PAGE_SIZE

/-- One kernel-addressable byte-slice view produced by
`translated_byte_buffer`: the bytes `[lo, hi)` of physical page `ppn`
(standing for `&mut ppn.get_bytes_array()[lo..hi]`). -/
structure ByteSlice where
  ppn : Nat
  lo : Nat
  hi : Nat
  deriving DecidableEq, Repr

/-- The while loop of `translated_byte_buffer`, made structural on an
explicit fuel (the loop advances `start` by at least one byte per
iteration, so any fuel at least `stop - start` is enough; the exported
definition below passes `len`). Each iteration floors `start` to its
virtual page, translates it (unwrap: an unmapped page is fatal, none),
steps to the next page boundary clipped to `stop`, and emits the slice
`[page_offset(start) .. page_offset(end_va))` of the translated physical
page, the end offset 0 standing for a full tail `[lo .. PAGE_SIZE)`. -/
def tbb_loop (m : Mem) (pt : PageTable) : Nat → Nat → Nat → Option (List ByteSlice)
  | 0, start, stop => if start < stop then none else some []
  | fuel + 1, start, stop =>
    if start < stop then
      let vpn := start / PAGE_SIZE
      match pt.translate m vpn with
      | none => none
      | some pte =>
        let ppn := pte.ppn
        let end_va := min ((vpn + 1) * PAGE_SIZE) stop
        let slice : ByteSlice :=
          if end_va % PAGE_SIZE = 0 then ⟨ppn, start % PAGE_SIZE, PAGE_SIZE⟩
          else ⟨ppn, start % PAGE_SIZE, end_va % PAGE_SIZE⟩
        (tbb_loop m pt fuel end_va stop).map fun rest => slice :: rest
    else some []

/-- Rust `translated_byte_buffer(token, ptr, len)`: builds a non-owning page
table from the token and walks the byte range `[ptr, ptr + len)`; the end
address is a usize sum, hence reduced modulo 2 ^ 64. -/
def translated_byte_buffer (m : Mem) (token ptr len : Nat) : Option (List ByteSlice) :=
  let page_table := PageTable.from_token token
  tbb_loop m page_table len ptr ((ptr + len) % 2 ^ 64)

/-- Specification-side description of the j-th slice of a byte range
(following the spec sentence: one slice per physical page touched, each
clipped to page boundaries): slice j covers page `start / PAGE_SIZE + j`,
starts at the page offset of `start` for j = 0 and at offset 0 afterwards, and
ends at the page boundary or at the offset of `stop` on the last page. Used
only to state what `translated_byte_buffer` returns. -/
def sliceSpec (m : Mem) (pt : PageTable) (start stop j : Nat) : ByteSlice :=
  let v := start / PAGE_SIZE + j
  let lo := if j = 0 then start % PAGE_SIZE else 0
  let seg := min ((v + 1) * PAGE_SIZE) stop
  let hi := if seg % PAGE_SIZE = 0 then PAGE_SIZE else seg % PAGE_SIZE
  ⟨((pt.translate m v).getD PageTableEntry.empty).ppn, lo, hi⟩

/-- Specification-side description of the whole returned sequence: one
slice for each of the `k + 1` pages touched by `[start, stop)`, where `k`
is the number of page boundaries crossed, in ascending address order. -/
def sliceSpecList (m : Mem) (pt : PageTable) (start stop : Nat) : List ByteSlice :=
  (List.range ((stop - 1) / PAGE_SIZE - start / PAGE_SIZE + 1)).map
    (sliceSpec m pt start stop)

end Kernel

/-! ## PID allocation and kernel-stack placement (src/os/src/task/pid.rs) -/

namespace Kernel

/-- Rust `PidAllocator`: `current` is the next never-issued value, `recycled`
the pool of released values. The Vec push/pop end is the list head. -/
structure PidAllocator where
  current : Nat
  recycled : List Nat
  deriving DecidableEq, Repr

/-- Rust `PidAllocator::new()`: current 0, empty pool. -/
def PidAllocator.new : PidAllocator := ⟨0, []⟩

/-- Rust `PidAllocator::alloc()`: pop the most recently recycled value if the
pool is non-empty, else issue `current` and bump it (the source bumps first
and returns `current - 1`, which is the same value). -/
def PidAllocator.alloc (a : PidAllocator) : Nat × PidAllocator :=
  match a.recycled with
  | pid :: rest => (pid, ⟨a.current, rest⟩)
  | [] => (a.current, ⟨a.current + 1, []⟩)

/-- Rust `PidAllocator::dealloc(pid)`: the two asserts — `pid < current` (the
value was issued) and pid not already in the pool — are fatal on violation
(none); otherwise the value is pushed onto the pool. -/
def PidAllocator.dealloc (a : PidAllocator) (pid : Nat) : Option PidAllocator :=
  if pid < a.current ∧ pid ∉ a.recycled then some ⟨a.current, pid :: a.recycled⟩
  else none

/-- A client-visible allocator operation: `pid_alloc()` (a new PidHandle
becomes live) or a PidHandle drop (which calls `dealloc` on its value). -/
inductive PidOp where
  | opAlloc : PidOp
  | opDealloc : Nat → PidOp
  deriving DecidableEq, Repr

/-- Run a sequence of operations against the allocator, tracking the values
of currently live PidHandles; a handle drop removes its value from the live
list; a fatal dealloc aborts the run (none). -/
def pidExec (a : PidAllocator) (live : List Nat) : List PidOp → Option (PidAllocator × List Nat)
  | [] => some (a, live)
  | PidOp.opAlloc :: ops =>
    let r := a.alloc
    pidExec r.2 (r.1 :: live) ops
  | PidOp.opDealloc p :: ops =>
    match a.dealloc p with
    | some a2 => pidExec a2 (live.erase p) ops
    | none => none

/-- Rust `kernel_stack_position(app_id)`: `top = TRAMPOLINE - app_id *
(KERNEL_STACK_SIZE + PAGE_SIZE)`, `bottom = top - KERNEL_STACK_SIZE`; both
subtractions are on usize, modelled as wrapping arithmetic modulo 2 ^ 64. -/
def kernel_stack_position (app_id : Nat) : Nat × Nat :=
  let top := (TRAMPOLINE + (2 ^ 64 - app_id * (KERNEL_STACK_SIZE + PAGE_SIZE) % 2 ^ 64)) % 2 ^ 64
  let bottom := (top + (2 ^ 64 - KERNEL_STACK_SIZE)) % 2 ^ 64
  (bottom, top)

end Kernel

/-! ## Task control block and processor (src/os/src/task/task.rs, processor.rs) -/

namespace Kernel

/-- Modelled from the spec: `TaskContext` (task/context.rs is not under
src/) is an opaque saved register snapshot; only zero-initialization is
needed here. -/
structure TaskContext where
  regs : Nat
  deriving DecidableEq, Repr

/-- Rust `TaskContext::zero_init()`. -/
def TaskContext.zero_init : TaskContext := ⟨0⟩

/-- Rust `TaskStatus`: the closed set of task states. -/
inductive TaskStatus where
  | UnInit
  | Ready
  | Running
  | Exited
  deriving DecidableEq, Repr

/-- Rust `TaskControlBlock` from task.rs: status, saved context, and the two
timing fields (each holds the timestamp mark of its last sample). -/
structure TaskControlBlock where
  task_status : TaskStatus
  task_cx : TaskContext
  user_time : Nat
  kernel_time : Nat
  deriving DecidableEq, Repr

/-- Rust `TaskControlBlock::update_kernel_time()` (named sample_kernel_time
in the spec): reads the stored mark, re-bases it to `get_time()`,
and returns the difference. The timer is an external collaborator, so the
current time is passed in as `now`; the usize subtraction is exact for a
monotone clock (now at least the stored mark), which the theorems assume. -/
def TaskControlBlock.update_kernel_time (t : TaskControlBlock) (now : Nat) :
    Nat × TaskControlBlock :=
  let last_time := t.kernel_time
  let t2 := { t with kernel_time := now }
  (t2.kernel_time - last_time, t2)

/-- Repeated sampling: run `update_kernel_time` at each timestamp of `ts`
in order, summing the returned deltas. -/
def sampleRun (t : TaskControlBlock) : List Nat → Nat × TaskControlBlock
  | [] => (0, t)
  | now :: rest =>
    let r := t.update_kernel_time now
    let r2 := sampleRun r.2 rest
    (r.1 + r2.1, r2.2)

/-- Rust `Processor`: the currently executing task (None when idle) and the
idle context owned by the scheduler. The Arc reference is modelled by the task
value itself. -/
structure Processor where
  current : Option TaskControlBlock
  idle_task_cx : TaskContext
  deriving DecidableEq, Repr

/-- Rust `Processor::new()`. -/
def Processor.new : Processor := ⟨none, TaskContext.zero_init⟩

/-- Rust `Processor::take_current()`: `self.current.take()` — returns the task
and leaves None in its place. -/
def Processor.take_current (p : Processor) : Option TaskControlBlock × Processor :=
  (p.current, { p with current := none })

/-- Rust `Processor::current()` (named peek_current in the spec; the Lean field
accessor already uses the name `current`):
`self.current.as_ref().map(Arc::clone)` — returns a clone of the reference
through a shared borrow; the unchanged processor is returned alongside to
make the absence of mutation explicit. -/
def Processor.peek_current (p : Processor) : Option TaskControlBlock × Processor :=
  (p.current.map fun t => t, p)

end Kernel

/-! ## Concrete demonstration runs used by witnesses and counterexamples -/

namespace Kernel

/-- The machine with all-zero physical memory and no frame handed out yet. -/
def demoS0 : MachineState := ⟨fun _ _ => PageTableEntry.empty, 0⟩

/-- Rust `PageTable::new()` on the fresh machine. -/
def demoNew : MachineState × PageTable := PageTable.new demoS0

/-- Machine after creating the demo page table. -/
def demoS1 : MachineState := demoNew.1

/-- The freshly created demo page table (root frame 0). -/
def demoPT1 : PageTable := demoNew.2

/-- Rust `map(vpn 0, ppn 16, flags R|W)` on the fresh table. -/
def demoMap : Option (MachineState × PageTable) :=
  demoPT1.map demoS1 0 16 (PTEFlags.R ||| PTEFlags.W)

/-- The (successful) result of the demo map. -/
def demoRes : MachineState × PageTable := demoMap.getD (demoS0, demoPT1)

/-- Machine after the demo map. -/
def demoS2 : MachineState := demoRes.1

/-- Page table after the demo map. -/
def demoPT2 : PageTable := demoRes.2

/-- A second map on the demo table: `map(vpn 1, ppn 17, flags R|W)`. -/
def demoMap2 : Option (MachineState × PageTable) :=
  demoPT2.map demoS2 1 17 (PTEFlags.R ||| PTEFlags.W)

/-- The (successful) result of the second demo map. -/
def demoRes2 : MachineState × PageTable := demoMap2.getD (demoS2, demoPT2)

/-- Machine after both demo maps. -/
def demoS3 : MachineState := demoRes2.1

/-- Page table after both demo maps. -/
def demoPT3 : PageTable := demoRes2.2

/-- A third map with an out-of-range physical page number:
`map(vpn 2, ppn 2 ^ 44 + 9, flags R|W)`. -/
def demoMapBig : Option (MachineState × PageTable) :=
  demoPT3.map demoS3 2 (2 ^ 44 + 9) (PTEFlags.R ||| PTEFlags.W)

/-- The (successful) result of the out-of-range demo map. -/
def demoResBig : MachineState × PageTable := demoMapBig.getD (demoS3, demoPT3)

/-- The PID scenario of the spec: allocate three PIDs, release the second,
allocate twice more; returns the five allocated values. -/
def pidScenario : Option (Nat × Nat × Nat × Nat × Nat) :=
  let r0 := PidAllocator.new.alloc
  let r1 := r0.2.alloc
  let r2 := r1.2.alloc
  (r2.2.dealloc r1.1).map fun a =>
    let r3 := a.alloc
    let r4 := r3.2.alloc
    (r0.1, r1.1, r2.1, r3.1, r4.1)

/-- A concrete page-table image for the top of the address space: the walk
for virtual page 2 ^ 52 - 1 (indexes 511, 511, 511) is fully mapped with
leaf ppn 3, flags V|R|W. Root page is 0. -/
def topPageMem : Mem := fun p i =>
  if p = 0 ∧ i = 511 then PageTableEntry.new 1 PTEFlags.V
  else if p = 1 ∧ i = 511 then PageTableEntry.new 2 PTEFlags.V
  else if p = 2 ∧ i = 511 then PageTableEntry.new 3 (PTEFlags.V ||| PTEFlags.R ||| PTEFlags.W)
  else PageTableEntry.empty

/-- A demonstration task control block. -/
def demoTCB : TaskControlBlock := ⟨TaskStatus.Running, TaskContext.zero_init, 0, 100⟩

/-- A processor currently running the demonstration task. -/
def demoProcessor : Processor := ⟨some demoTCB, TaskContext.zero_init⟩

/-- The allocator/live-handle invariant maintained by every operation
sequence: live handle values are pairwise distinct, live values and pooled
values were all issued (below `current`), no value is both live and pooled,
the pool holds no duplicates, and every issued value is live or pooled. -/
def PidInv (a : PidAllocator) (live : List Nat) : Prop :=
  live.Nodup ∧ a.recycled.Nodup ∧
  (∀ v ∈ live, v < a.current ∧ v ∉ a.recycled) ∧
  (∀ v ∈ a.recycled, v < a.current) ∧
  (∀ v, v < a.current → v ∈ live ∨ v ∈ a.recycled)

/-- Well-formedness of a page table inside machine memory, as established
by construction for tables grown from a fresh root frame by map: the root
and the target of every valid entry lie strictly below the allocation
frontier (so freshly allocated frames are disjoint from the existing
structure), no valid entry points back to the root page, no valid entry
points to its own page, and at least two more frames fit below the 44-bit
page-number width. -/
def WF (s : MachineState) (pt : PageTable) : Prop :=
  pt.root_ppn < s.next_frame ∧
  s.next_frame + 2 ≤ 2 ^ 44 ∧
  ∀ p i, (s.mem p i).is_valid = true →
    (s.mem p i).ppn < s.next_frame ∧
    (s.mem p i).ppn ≠ pt.root_ppn ∧
    (s.mem p i).ppn ≠ p

end Kernel

/-! ## Helper lemmas about bit arithmetic -/

namespace Kernel

theorem lor_div_two_pow (x y k : Nat) : (x ||| y) / 2 ^ k = x / 2 ^ k ||| y / 2 ^ k := by
  rw [← Nat.shiftRight_eq_div_pow, ← Nat.shiftRight_eq_div_pow, ← Nat.shiftRight_eq_div_pow]
  apply Nat.eq_of_testBit_eq
  intro i
  simp [Nat.testBit_lor, Nat.testBit_shiftRight]

theorem lor_mod_two_pow (x y k : Nat) : (x ||| y) % 2 ^ k = x % 2 ^ k ||| y % 2 ^ k := by
  apply Nat.eq_of_testBit_eq
  intro i
  simp [Nat.testBit_lor, Nat.testBit_mod_two_pow, Bool.and_or_distrib_left]

theorem pte_new_flags_eq (ppn flags : Nat) (h : flags < 2 ^ 8) :
    (PageTableEntry.new ppn flags).flags = flags := by
  show (ppn * 2 ^ 10 % 2 ^ 64 ||| flags) % 2 ^ 8 = flags
  rw [lor_mod_two_pow]
  have h1 : ppn * 2 ^ 10 % 2 ^ 64 % 2 ^ 8 = 0 := by
    have h2 : (2 : Nat) ^ 64 = 2 ^ 56 * 2 ^ 8 := by norm_num
    omega
  rw [h1, Nat.zero_or]
  omega

theorem pte_new_ppn_eq (ppn flags : Nat) (h : flags < 2 ^ 8) :
    (PageTableEntry.new ppn flags).ppn = ppn % 2 ^ 44 := by
  show (ppn * 2 ^ 10 % 2 ^ 64 ||| flags) / 2 ^ 10 % 2 ^ 44 = ppn % 2 ^ 44
  rw [lor_div_two_pow]
  have h2 : flags / 2 ^ 10 = 0 := by omega
  have h3 : ppn * 2 ^ 10 % 2 ^ 64 = ppn % 2 ^ 54 * 2 ^ 10 := by
    have h4 : (2 : Nat) ^ 64 = 2 ^ 54 * 2 ^ 10 := by norm_num
    rw [h4, Nat.mul_mod_mul_right]
  rw [h2, h3, Nat.or_zero]
  omega

theorem pte_empty_not_valid : PageTableEntry.empty.is_valid = false := rfl

theorem pte_new_valid_is_valid (p f : Nat) :
    (PageTableEntry.new p (f ||| PTEFlags.V)).is_valid = true := by
  have h1 : (PageTableEntry.new p (f ||| PTEFlags.V)).flags % 2 = 1 := by
    show (p * 2 ^ 10 % 2 ^ 64 ||| (f ||| PTEFlags.V)) % 2 ^ 8 % 2 = 1
    have h2 : (p * 2 ^ 10 % 2 ^ 64 ||| (f ||| PTEFlags.V)) % 2 ^ 8 % 2 ^ 1 =
        p * 2 ^ 10 % 2 ^ 64 % 2 ^ 1 ||| (f ||| PTEFlags.V) % 2 ^ 1 := by
      rw [lor_mod_two_pow, lor_mod_two_pow]
      have h3 : (2 : Nat) ^ 8 = 2 ^ 7 * 2 ^ 1 := by norm_num
      congr 1 <;> omega
    have h4 : p * 2 ^ 10 % 2 ^ 64 % 2 ^ 1 = 0 := by
      have h5 : (2 : Nat) ^ 64 = 2 ^ 63 * 2 ^ 1 := by norm_num
      omega
    have h6 : (f ||| PTEFlags.V) % 2 ^ 1 = 1 := by
      rw [lor_mod_two_pow]
      have h7 : PTEFlags.V % 2 ^ 1 = 1 := by decide
      rw [h7]
      rcases Nat.mod_two_eq_zero_or_one f with h8 | h8 <;>
        simp [show f % 2 ^ 1 = f % 2 from rfl, h8]
    rw [show ((2 : Nat) ^ 8) = 2 ^ 8 from rfl] at h2
    calc (p * 2 ^ 10 % 2 ^ 64 ||| (f ||| PTEFlags.V)) % 2 ^ 8 % 2
        = (p * 2 ^ 10 % 2 ^ 64 ||| (f ||| PTEFlags.V)) % 2 ^ 8 % 2 ^ 1 := by norm_num
      _ = p * 2 ^ 10 % 2 ^ 64 % 2 ^ 1 ||| (f ||| PTEFlags.V) % 2 ^ 1 := h2
      _ = 1 := by rw [h4, h6]; decide
  show ((PageTableEntry.new p (f ||| PTEFlags.V)).flags &&& PTEFlags.V != PTEFlags.emptyFlags) = true
  have h9 : (PageTableEntry.new p (f ||| PTEFlags.V)).flags &&& 1 =
      (PageTableEntry.new p (f ||| PTEFlags.V)).flags % 2 := Nat.and_one_is_mod _
  simp only [PTEFlags.V, PTEFlags.emptyFlags] at h9 ⊢
  simp only [h9]
  simpa [PTEFlags.V] using h1

theorem mem_write_self (m : Mem) (p i : Nat) (e : PageTableEntry) :
    m.write p i e p i = e := by
  simp [Mem.write]

theorem mem_write_ne (m : Mem) (e : PageTableEntry) {p i q j : Nat}
    (h : ¬(q = p ∧ j = i)) : m.write p i e q j = m q j := by
  simp only [Mem.write, if_neg h]

theorem mem_zero_self (m : Mem) (p i : Nat) :
    m.zero p p i = PageTableEntry.empty := by
  simp [Mem.zero]

theorem mem_zero_ne (m : Mem) {p q : Nat} (i : Nat) (h : q ≠ p) :
    m.zero p q i = m q i := by
  simp only [Mem.zero, if_neg h]

end Kernel

/-! ## Claim theorems -/

namespace Kernel

/-- C10: PageTableEntry construction performs no bound check on the physical
page number: for every ppn and every (8-bit) flags value,
`PageTableEntry::new(ppn, flags).flags()` equals flags and `.ppn()` equals
ppn modulo 2 ^ 44, so the ppn round-trips exactly only when ppn < 2 ^ 44 and
larger values are silently truncated rather than rejected. -/
theorem pte_new_no_bound_check (ppn flags : Nat) (h : flags < 2 ^ 8) :
    (PageTableEntry.new ppn flags).flags = flags ∧
    (PageTableEntry.new ppn flags).ppn = ppn % 2 ^ 44 := by
  exact ⟨pte_new_flags_eq ppn flags h, pte_new_ppn_eq ppn flags h⟩

/-- Witness for C10 at ppn = 2 ^ 44 + 5 (out of range, silently truncated to 5)
and flags = 6 (readable plus writable). -/
theorem pte_new_no_bound_check_witness :
    (2 : Nat) + 4 < 2 ^ 8 ∧
    (PageTableEntry.new (2 ^ 44 + 5) (2 + 4)).flags = 2 + 4 ∧
    (PageTableEntry.new (2 ^ 44 + 5) (2 + 4)).ppn = 5 := by
  refine ⟨by norm_num, (pte_new_no_bound_check (2 ^ 44 + 5) (2 + 4) (by norm_num)).1, ?_⟩
  rw [(pte_new_no_bound_check (2 ^ 44 + 5) (2 + 4) (by norm_num)).2]
  norm_num

/-- C7: `alloc()` returns the most-recently-recycled value when the pool is
non-empty (the push/pop end of the pool, here the list head) and otherwise the
next never-used value in increasing order starting from 0 (a fresh
allocator starts `current` at 0 with an empty pool); concretely, after
allocating 0, 1, 2 and releasing 1, the next two allocations return 1 and
then 3. -/
theorem pid_alloc_policy (a : PidAllocator) :
    (a.alloc).1 = a.recycled.headD a.current ∧
    PidAllocator.new.current = 0 ∧
    PidAllocator.new.recycled = [] ∧
    pidScenario = some (0, 1, 2, 1, 3) := by
  refine ⟨?_, rfl, rfl, by decide⟩
  cases h : a.recycled <;> simp [PidAllocator.alloc, h]

/-- C9: on a processor whose current task is t, `take_current()` returns t
and leaves the slot empty (a second take returns nothing, and the idle
context is untouched), while `current()` (peek) returns the same task and
leaves the whole processor state unchanged. -/
theorem processor_take_peek_spec (p : Processor) (t : TaskControlBlock)
    (h : p.current = some t) :
    (p.take_current).1 = some t ∧
    (p.take_current).2.current = none ∧
    (p.take_current).2.idle_task_cx = p.idle_task_cx ∧
    ((p.take_current).2.take_current).1 = none ∧
    (p.peek_current).1 = some t ∧
    (p.peek_current).2 = p := by
  simp [Processor.take_current, Processor.peek_current, h]

/-- Witness for C9 on a concrete processor running the demo task. -/
theorem processor_take_peek_spec_witness :
    demoProcessor.current = some demoTCB ∧
    ((demoProcessor.take_current).1 = some demoTCB ∧
     (demoProcessor.take_current).2.current = none ∧
     (demoProcessor.take_current).2.idle_task_cx = demoProcessor.idle_task_cx ∧
     ((demoProcessor.take_current).2.take_current).1 = none ∧
     (demoProcessor.peek_current).1 = some demoTCB ∧
     (demoProcessor.peek_current).2 = demoProcessor) :=
  ⟨rfl, processor_take_peek_spec demoProcessor demoTCB rfl⟩

theorem chain_le_getLastD (x : Nat) (l : List Nat)
    (h : List.Chain (· ≤ ·) x l) : x ≤ l.getLastD x := by
  induction l generalizing x with
  | nil => exact Nat.le_refl x
  | cons b l ih =>
    rw [List.chain_cons] at h
    rw [List.getLastD_cons]
    exact Nat.le_trans h.1 (ih b h.2)

theorem sampleRun_spec (ts : List Nat) :
    ∀ t : TaskControlBlock, List.Chain (· ≤ ·) t.kernel_time ts →
      (sampleRun t ts).1 = ts.getLastD t.kernel_time - t.kernel_time ∧
      (sampleRun t ts).2.kernel_time = ts.getLastD t.kernel_time := by
  induction ts with
  | nil => intro t _; exact ⟨by simp [sampleRun], rfl⟩
  | cons now rest ih =>
    intro t h
    rw [List.chain_cons] at h
    have h2 : ({ t with kernel_time := now } : TaskControlBlock).kernel_time = now := rfl
    have h3 := ih { t with kernel_time := now } (by rw [h2]; exact h.2)
    rw [h2] at h3
    have h4 : now ≤ rest.getLastD now := chain_le_getLastD now rest h.2
    constructor
    · show now - t.kernel_time + (sampleRun { t with kernel_time := now } rest).1 =
        (now :: rest).getLastD t.kernel_time - t.kernel_time
      rw [h3.1, List.getLastD_cons]
      omega
    · show (sampleRun { t with kernel_time := now } rest).2.kernel_time =
        (now :: rest).getLastD t.kernel_time
      rw [h3.2, List.getLastD_cons]

/-- C8: `update_kernel_time` returns exactly the time elapsed since the
previous sample and re-bases the stored mark to the current time in the
same call (leaving the other fields untouched), so that over any monotone
sequence of sample timestamps the returned deltas sum to exactly the total
elapsed time — no drift. -/
theorem update_kernel_time_spec (t : TaskControlBlock) (now : Nat) (ts : List Nat)
    (h1 : t.kernel_time ≤ now) (h2 : List.Chain (· ≤ ·) t.kernel_time ts) :
    (t.update_kernel_time now).1 = now - t.kernel_time ∧
    (t.update_kernel_time now).1 + t.kernel_time = now ∧
    (t.update_kernel_time now).2.kernel_time = now ∧
    (t.update_kernel_time now).2.task_status = t.task_status ∧
    (t.update_kernel_time now).2.task_cx = t.task_cx ∧
    (t.update_kernel_time now).2.user_time = t.user_time ∧
    (sampleRun t ts).1 = ts.getLastD t.kernel_time - t.kernel_time ∧
    (sampleRun t ts).2.kernel_time = ts.getLastD t.kernel_time := by
  have h3 := sampleRun_spec ts t h2
  refine ⟨rfl, ?_, rfl, rfl, rfl, rfl, h3.1, h3.2⟩
  show now - t.kernel_time + t.kernel_time = now
  omega

/-- Witness for C8: the demo task (mark 100) sampled at time 150, then over
the timestamp list [150, 230]. -/
theorem update_kernel_time_spec_witness :
    demoTCB.kernel_time ≤ 150 ∧
    ((demoTCB.update_kernel_time 150).1 = 150 - demoTCB.kernel_time ∧
     (demoTCB.update_kernel_time 150).1 + demoTCB.kernel_time = 150 ∧
     (demoTCB.update_kernel_time 150).2.kernel_time = 150 ∧
     (demoTCB.update_kernel_time 150).2.task_status = demoTCB.task_status ∧
     (demoTCB.update_kernel_time 150).2.task_cx = demoTCB.task_cx ∧
     (demoTCB.update_kernel_time 150).2.user_time = demoTCB.user_time ∧
     (sampleRun demoTCB [150, 230]).1 = [150, 230].getLastD demoTCB.kernel_time - demoTCB.kernel_time ∧
     (sampleRun demoTCB [150, 230]).2.kernel_time = [150, 230].getLastD demoTCB.kernel_time) :=
  ⟨by decide,
   update_kernel_time_spec demoTCB 150 [150, 230] (by decide)
     (List.Chain.cons (by decide) (List.Chain.cons (by decide) List.Chain.nil))⟩

theorem pidExec_inv (ops : List PidOp) :
    ∀ a live, PidInv a live → ∀ r, pidExec a live ops = some r → PidInv r.1 r.2 := by
  induction ops with
  | nil =>
    intro a live hinv r hr
    simp only [pidExec, Option.some.injEq] at hr
    rw [← hr]
    exact hinv
  | cons op ops ih =>
    intro a live hinv r hr
    obtain ⟨hnodup, hrnodup, hlive, hrec, hcons⟩ := hinv
    cases op with
    | opAlloc =>
      simp only [pidExec] at hr
      rcases hrl : a.recycled with _ | ⟨p, rest⟩
      · have ha : a.alloc = (a.current, ⟨a.current + 1, []⟩) := by
          simp [PidAllocator.alloc, hrl]
        rw [ha] at hr
        refine ih _ _ ⟨?_, ?_, ?_, ?_, ?_⟩ r hr
        · exact List.Nodup.cons (fun hc => Nat.lt_irrefl _ (hlive _ hc).1) hnodup
        · exact List.nodup_nil
        · intro v hv
          rcases List.mem_cons.mp hv with h | h
          · exact ⟨by rw [h]; exact Nat.lt_succ_self _, by rw [h]; exact List.not_mem_nil _⟩
          · exact ⟨Nat.lt_succ_of_lt (hlive v h).1, List.not_mem_nil v⟩
        · intro v hv; exact absurd hv (List.not_mem_nil v)
        · intro v hv
          rcases Nat.lt_succ_iff_lt_or_eq.mp hv with h | h
          · rcases hcons v h with h2 | h2
            · exact Or.inl (List.mem_cons_of_mem _ h2)
            · rw [hrl] at h2; exact absurd h2 (List.not_mem_nil v)
          · rw [h]; exact Or.inl (List.mem_cons_self _ _)
      · have ha : a.alloc = (p, ⟨a.current, rest⟩) := by
          simp [PidAllocator.alloc, hrl]
        rw [ha] at hr
        have hprec : p ∈ a.recycled := by rw [hrl]; exact List.mem_cons_self _ _
        have hrest : ∀ v ∈ rest, v ∈ a.recycled := by
          intro v hv; rw [hrl]; exact List.mem_cons_of_mem _ hv
        have hpnodup : a.recycled.Nodup := hrnodup
        rw [hrl] at hpnodup
        refine ih _ _ ⟨?_, ?_, ?_, ?_, ?_⟩ r hr
        · exact List.Nodup.cons (fun hc => (hlive p hc).2 hprec) hnodup
        · exact (List.nodup_cons.mp hpnodup).2
        · intro v hv
          rcases List.mem_cons.mp hv with h | h
          · rw [h]
            exact ⟨hrec p hprec, (List.nodup_cons.mp hpnodup).1⟩
          · refine ⟨(hlive v h).1, fun hc => (hlive v h).2 (hrest v hc)⟩
        · intro v hv; exact hrec v (hrest v hv)
        · intro v hv
          rcases hcons v hv with h | h
          · exact Or.inl (List.mem_cons_of_mem _ h)
          · rw [hrl] at h
            rcases List.mem_cons.mp h with h2 | h2
            · rw [h2]; exact Or.inl (List.mem_cons_self _ _)
            · exact Or.inr h2
    | opDealloc q =>
      simp only [pidExec] at hr
      rcases hd : a.dealloc q with _ | a2
      · rw [hd] at hr; exact absurd hr (by simp)
      · rw [hd] at hr
        simp only [PidAllocator.dealloc] at hd
        by_cases hc : q < a.current ∧ q ∉ a.recycled
        · rw [if_pos hc] at hd
          have ha2 : a2 = ⟨a.current, q :: a.recycled⟩ := by
            exact (Option.some.injEq _ _).mp hd.symm
          subst ha2
          refine ih _ _ ⟨?_, ?_, ?_, ?_, ?_⟩ r hr
          · exact List.Nodup.erase q hnodup
          · exact List.Nodup.cons hc.2 hrnodup
          · intro v hv
            have hv2 := (List.Nodup.mem_erase_iff hnodup).mp hv
            refine ⟨(hlive v hv2.2).1, fun hcc => ?_⟩
            rcases List.mem_cons.mp hcc with h | h
            · exact hv2.1 h
            · exact (hlive v hv2.2).2 h
          · intro v hv
            rcases List.mem_cons.mp hv with h | h
            · subst h; exact hc.1
            · exact hrec v h
          · intro v hv
            rcases hcons v hv with h | h
            · by_cases hvq : v = q
              · rw [hvq]; exact Or.inr (List.mem_cons_self _ _)
              · exact Or.inl ((List.Nodup.mem_erase_iff hnodup).mpr ⟨hvq, h⟩)
            · exact Or.inr (List.mem_cons_of_mem _ h)
        · rw [if_neg hc] at hd; exact absurd hd (by simp)

/-- C3: for every sequence of alloc/dealloc operations from a fresh
allocator that does not abort, the simultaneously live handle values are
pairwise distinct; the next allocation never returns a currently live
value (a value reappears only after release); and deallocating a value q
fails fatally exactly when q was never issued (q is at least `current`) or
is already in the recycle pool. -/
theorem pid_alloc_dealloc_invariants (ops : List PidOp) (q : Nat)
    (a : PidAllocator) (live : List Nat)
    (h : pidExec PidAllocator.new [] ops = some (a, live)) :
    live.Nodup ∧
    (a.alloc).1 ∉ live ∧
    (a.dealloc q = none ↔ a.current ≤ q ∨ q ∈ a.recycled) := by
  have hinv : PidInv a live := by
    have h0 : PidInv PidAllocator.new [] := by
      refine ⟨List.nodup_nil, List.nodup_nil, ?_, ?_, ?_⟩
      · intro v hv; exact absurd hv (List.not_mem_nil v)
      · intro v hv; exact absurd hv (List.not_mem_nil v)
      · intro v hv; exact absurd hv (Nat.not_lt_zero v)
    exact pidExec_inv ops PidAllocator.new [] h0 (a, live) h
  obtain ⟨hnodup, hrnodup, hlive, hrec, hcons⟩ := hinv
  refine ⟨hnodup, ?_, ?_⟩
  · rcases hrl : a.recycled with _ | ⟨p, rest⟩
    · have ha : (a.alloc).1 = a.current := by simp [PidAllocator.alloc, hrl]
      rw [ha]
      intro hc
      exact Nat.lt_irrefl _ (hlive _ hc).1
    · have ha : (a.alloc).1 = p := by simp [PidAllocator.alloc, hrl]
      rw [ha]
      intro hc
      exact (hlive p hc).2 (by rw [hrl]; exact List.mem_cons_self _ _)
  · simp only [PidAllocator.dealloc]
    constructor
    · intro hn
      by_cases hc : q < a.current ∧ q ∉ a.recycled
      · rw [if_pos hc] at hn; exact absurd hn (by simp)
      · rcases Decidable.not_and_iff_or_not.mp hc with h2 | h2
        · exact Or.inl (Nat.le_of_not_lt h2)
        · exact Or.inr (Decidable.not_not.mp h2)
    · intro hor
      rw [if_neg]
      rintro ⟨hlt, hnmem⟩
      rcases hor with h2 | h2
      · exact Nat.lt_irrefl _ (Nat.lt_of_lt_of_le hlt h2)
      · exact hnmem h2

/-- Witness for C3: the six-operation run alloc, alloc, alloc, dealloc 1,
alloc, alloc ends with live values [3, 1, 2, 0], allocator current 4 and
an empty pool; instantiated with probe value q = 7 (never issued). -/
theorem pid_alloc_dealloc_invariants_witness :
    ([3, 1, 2, 0] : List Nat).Nodup ∧
    ((⟨4, []⟩ : PidAllocator).alloc).1 ∉ ([3, 1, 2, 0] : List Nat) ∧
    ((⟨4, []⟩ : PidAllocator).dealloc 7 = none ↔
      (4 : Nat) ≤ 7 ∨ 7 ∈ ([] : List Nat)) :=
  pid_alloc_dealloc_invariants
    [PidOp.opAlloc, PidOp.opAlloc, PidOp.opAlloc, PidOp.opDealloc 1,
     PidOp.opAlloc, PidOp.opAlloc] 7 ⟨4, []⟩ [3, 1, 2, 0] rfl

theorem kernel_stack_position_eq (p : Nat) (h : p < 2 ^ 50) :
    kernel_stack_position p =
      (TRAMPOLINE - p * (KERNEL_STACK_SIZE + PAGE_SIZE) - KERNEL_STACK_SIZE,
       TRAMPOLINE - p * (KERNEL_STACK_SIZE + PAGE_SIZE)) := by
  simp only [kernel_stack_position, TRAMPOLINE, KERNEL_STACK_SIZE, PAGE_SIZE, Prod.mk.injEq]
  omega

/-- C4 counterexample: kernel-stack placement is computed with wrapping
usize arithmetic, so it is not injective over all PIDs: PID 2 ^ 52 wraps to
exactly the same (bottom, top) range as PID 0 — the two distinct PIDs have
identical, overlapping, non-empty ranges, contradicting the claim for
every pair of distinct PIDs. -/
theorem kernel_stack_position_cex :
    kernel_stack_position (2 ^ 52) = kernel_stack_position 0 ∧
    (2 ^ 52 : Nat) ≠ 0 ∧
    (kernel_stack_position 0).1 < (kernel_stack_position 0).2 := by
  refine ⟨by decide, by norm_num, by decide⟩

/-- C4 (amended): restricted to PIDs below 2 ^ 50 — far beyond any
realizable process count but small enough that the descending placement
arithmetic cannot wrap — placement is a pure function of the PID, strictly
descending and injective: for p < q the ranges [bottom, top) are disjoint
with the whole range of q below the bottom of p, separated by at least one
(guard) page; each range has exactly the stack size; consecutive slot tops
differ by exactly stack size plus one page, and consecutive ranges are
separated by exactly one guard page. -/
theorem kernel_stack_position_disjoint (p q : Nat)
    (hp : p + 1 < 2 ^ 50) (hq : q < 2 ^ 50) (hpq : p < q) :
    (kernel_stack_position q).2 + PAGE_SIZE ≤ (kernel_stack_position p).1 ∧
    (kernel_stack_position p).1 < (kernel_stack_position p).2 ∧
    (kernel_stack_position q).1 < (kernel_stack_position q).2 ∧
    (kernel_stack_position q).2 < (kernel_stack_position p).2 ∧
    (kernel_stack_position p).2 - (kernel_stack_position p).1 = KERNEL_STACK_SIZE ∧
    (kernel_stack_position p).2 ≤ TRAMPOLINE ∧
    (kernel_stack_position p).2 - (kernel_stack_position (p + 1)).2 =
      KERNEL_STACK_SIZE + PAGE_SIZE ∧
    (kernel_stack_position p).1 - (kernel_stack_position (p + 1)).2 = PAGE_SIZE := by
  rw [kernel_stack_position_eq p (by omega), kernel_stack_position_eq q hq,
    kernel_stack_position_eq (p + 1) hp]
  simp only [TRAMPOLINE, KERNEL_STACK_SIZE, PAGE_SIZE]
  omega

/-- Witness for C4 at the PID pair (0, 1). -/
theorem kernel_stack_position_disjoint_witness :
    (0 : Nat) + 1 < 2 ^ 50 ∧ (1 : Nat) < 2 ^ 50 ∧ (0 : Nat) < 1 ∧
    ((kernel_stack_position 1).2 + PAGE_SIZE ≤ (kernel_stack_position 0).1 ∧
     (kernel_stack_position 0).1 < (kernel_stack_position 0).2 ∧
     (kernel_stack_position 1).1 < (kernel_stack_position 1).2 ∧
     (kernel_stack_position 1).2 < (kernel_stack_position 0).2 ∧
     (kernel_stack_position 0).2 - (kernel_stack_position 0).1 = KERNEL_STACK_SIZE ∧
     (kernel_stack_position 0).2 ≤ TRAMPOLINE ∧
     (kernel_stack_position 0).2 - (kernel_stack_position (0 + 1)).2 =
       KERNEL_STACK_SIZE + PAGE_SIZE ∧
     (kernel_stack_position 0).1 - (kernel_stack_position (0 + 1)).2 = PAGE_SIZE) :=
  ⟨by norm_num, by norm_num, by norm_num,
   kernel_stack_position_disjoint 0 1 (by norm_num) (by norm_num) (by norm_num)⟩

/-- C1 counterexample: `translate` does not check the leaf entry. On a
fresh table, map virtual page 0 (which creates and zero-fills the shared
intermediate path of pages 0 and 1); virtual page 1 was never mapped, yet
`translate(1)` returns the zero-filled (invalid) leaf entry instead of
absent — contradicting both "absent in every other case" and "never
returns a zero-filled entry". -/
theorem translate_zero_entry_cex :
    demoMap = some (demoS2, demoPT2) ∧
    demoPT2.translate demoS2.mem 1 = some PageTableEntry.empty ∧
    PageTableEntry.empty.is_valid = false ∧
    PageTableEntry.empty.bits = 0 :=
  ⟨rfl, rfl, rfl, rfl⟩

/-- C1 (amended): `translate(vpn)` returns the entry stored in the leaf
slot — whatever that entry is, including an invalid or all-zero one — if,
and only if, the two intermediate entries on the path are valid, and
returns absent otherwise; on a freshly created table (whose root frame is
zero-filled) it returns absent for every vpn. -/
theorem translate_returns_leaf_slot_iff_intermediates_valid
    (m : Mem) (pt : PageTable) (s : MachineState) (vpn : Nat) :
    (pt.translate m vpn =
      if (m pt.root_ppn (vpn / 2 ^ 18 % 2 ^ 9)).is_valid then
        if (m (m pt.root_ppn (vpn / 2 ^ 18 % 2 ^ 9)).ppn (vpn / 2 ^ 9 % 2 ^ 9)).is_valid then
          some (m (m (m pt.root_ppn (vpn / 2 ^ 18 % 2 ^ 9)).ppn (vpn / 2 ^ 9 % 2 ^ 9)).ppn
            (vpn % 2 ^ 9))
        else none
      else none) ∧
    (PageTable.new s).2.translate (PageTable.new s).1.mem vpn = none := by
  constructor
  · simp only [PageTable.translate, PageTable.find_pte, VirtPageNum.indexes]
    cases h0 : (m pt.root_ppn (vpn / 2 ^ 18 % 2 ^ 9)).is_valid with
    | false => simp
    | true =>
      cases h1 : (m (m pt.root_ppn (vpn / 2 ^ 18 % 2 ^ 9)).ppn (vpn / 2 ^ 9 % 2 ^ 9)).is_valid with
      | false => simp
      | true => simp
  · simp [PageTable.translate, PageTable.find_pte, PageTable.new, frame_alloc,
      VirtPageNum.indexes, mem_zero_self, pte_empty_not_valid]

/-- C6: `map(vpn, ...)` fails fatally precisely when the target leaf slot
reached by the creating walk already holds a valid entry (so map never
overwrites an existing mapping); `unmap(vpn)` fails fatally precisely when
the read-only walk aborts on an invalid intermediate entry (translate
absent) or the leaf entry is already invalid; and unmap never allocates:
on success the allocation frontier and the owned frame list of the table are
unchanged. -/
theorem map_unmap_failure_conditions (s : MachineState) (pt : PageTable)
    (vpn ppn flags : Nat) :
    (pt.map s vpn ppn flags = none ↔
      (((pt.find_pte_create s vpn).1.mem) (pt.find_pte_create s vpn).2.2.1
        (pt.find_pte_create s vpn).2.2.2).is_valid = true) ∧
    (pt.unmap s vpn = none ↔
      (pt.translate s.mem vpn).all (fun e => ! e.is_valid) = true) ∧
    (pt.unmap s vpn).map (fun r => (r.1.next_frame, r.2.frames)) =
      (pt.unmap s vpn).map (fun _ => (s.next_frame, pt.frames)) := by
  refine ⟨?_, ?_, ?_⟩
  · simp only [PageTable.map]
    cases h : (((pt.find_pte_create s vpn).1.mem) (pt.find_pte_create s vpn).2.2.1
        (pt.find_pte_create s vpn).2.2.2).is_valid with
    | false => simp
    | true => simp
  · cases hf : pt.find_pte s.mem vpn with
    | none => simp [PageTable.unmap, PageTable.translate, hf]
    | some loc =>
      cases hv : ((s.mem) loc.1 loc.2).is_valid <;>
        simp [PageTable.unmap, PageTable.translate, hf, hv]
  · cases hf : pt.find_pte s.mem vpn with
    | none => simp [PageTable.unmap, hf]
    | some loc =>
      cases hv : ((s.mem) loc.1 loc.2).is_valid <;>
        simp [PageTable.unmap, hf, hv]

theorem step_create_of_valid (s : MachineState) (pt : PageTable) (p i : Nat)
    (h : (s.mem p i).is_valid = true) : step_create s pt p i = (s, pt) := by
  simp [step_create, h]

theorem step_create_of_invalid (s : MachineState) (pt : PageTable) (p i : Nat)
    (h : (s.mem p i).is_valid = false) :
    step_create s pt p i =
      (⟨(s.mem.zero s.next_frame).write p i (PageTableEntry.new s.next_frame PTEFlags.V),
        s.next_frame + 1⟩,
       ⟨pt.root_ppn, pt.frames ++ [s.next_frame]⟩) := by
  simp [step_create, h, frame_alloc]

theorem pte_new_V_is_valid (p : Nat) :
    (PageTableEntry.new p PTEFlags.V).is_valid = true := by
  have h : PTEFlags.V = (0 : Nat) ||| PTEFlags.V := by decide
  rw [h]
  exact pte_new_valid_is_valid p 0

theorem pte_new_V_ppn (p : Nat) (h : p < 2 ^ 44) :
    (PageTableEntry.new p PTEFlags.V).ppn = p := by
  rw [pte_new_ppn_eq p PTEFlags.V (by norm_num [PTEFlags.V])]
  omega

/-- C2 (amended): for every (vpn, ppn, flags) with ppn below the 44-bit
physical-page-number width and flags an 8-bit value, on a well-formed page
table where map succeeds (the leaf was not yet mapped), translate(vpn)
returns exactly the stored entry `PageTableEntry::new(ppn, flags | V)`:
its physical page number is exactly the supplied ppn and its flags are
exactly the supplied flags with the valid bit additionally set (the code
always ORs V into the stored flags, so the read-back flags equal the
supplied ones only when V was already among them). -/
theorem map_then_translate_returns_mapped_entry
    (s : MachineState) (pt : PageTable) (vpn ppn flags : Nat)
    (r : MachineState × PageTable)
    (hwf : WF s pt) (hppn : ppn < 2 ^ 44) (hflags : flags < 2 ^ 8)
    (hmap : pt.map s vpn ppn flags = some r) :
    r.2.translate r.1.mem vpn = some (PageTableEntry.new ppn (flags ||| PTEFlags.V)) ∧
    (PageTableEntry.new ppn (flags ||| PTEFlags.V)).is_valid = true ∧
    (PageTableEntry.new ppn (flags ||| PTEFlags.V)).ppn = ppn ∧
    (PageTableEntry.new ppn (flags ||| PTEFlags.V)).flags = flags ||| PTEFlags.V := by
  have hVlt : PTEFlags.V < 2 ^ 8 := by norm_num [PTEFlags.V]
  have hfV : flags ||| PTEFlags.V < 2 ^ 8 := Nat.or_lt_two_pow hflags hVlt
  refine ⟨?_, pte_new_valid_is_valid ppn flags, by rw [pte_new_ppn_eq _ _ hfV]; omega,
    pte_new_flags_eq _ _ hfV⟩
  obtain ⟨hroot_lt, hbound, hent⟩ := hwf
  simp only [PageTable.map, PageTable.find_pte_create, VirtPageNum.indexes] at hmap
  simp only [PageTable.translate, PageTable.find_pte, VirtPageNum.indexes]
  generalize hg0 : vpn / 2 ^ 18 % 2 ^ 9 = i0 at hmap ⊢
  generalize hg1 : vpn / 2 ^ 9 % 2 ^ 9 = i1 at hmap ⊢
  generalize hg2 : vpn % 2 ^ 9 = i2 at hmap ⊢
  cases h0 : (s.mem pt.root_ppn i0).is_valid with
  | true =>
    rw [step_create_of_valid s pt pt.root_ppn i0 h0] at hmap
    dsimp only at hmap
    obtain ⟨hAlt, hAnr, hAns⟩ := hent pt.root_ppn i0 h0
    cases h1 : (s.mem (s.mem pt.root_ppn i0).ppn i1).is_valid with
    | true =>
      rw [step_create_of_valid s pt (s.mem pt.root_ppn i0).ppn i1 h1] at hmap
      dsimp only at hmap
      obtain ⟨hBlt, hBnr, hBns⟩ := hent (s.mem pt.root_ppn i0).ppn i1 h1
      cases h2 : (s.mem (s.mem (s.mem pt.root_ppn i0).ppn i1).ppn i2).is_valid with
      | true => rw [h2] at hmap; simp at hmap
      | false =>
        rw [h2] at hmap
        simp only [Bool.false_eq_true, if_false, Option.some.injEq] at hmap
        subst hmap
        dsimp only
        rw [mem_write_ne s.mem (PageTableEntry.new ppn (flags ||| PTEFlags.V))
          (fun hc => hBnr hc.1.symm)]
        rw [h0]
        rw [mem_write_ne s.mem (PageTableEntry.new ppn (flags ||| PTEFlags.V))
          (fun hc => hBns hc.1.symm)]
        rw [h1]
        simp [mem_write_self]
    | false =>
      rw [step_create_of_invalid s pt (s.mem pt.root_ppn i0).ppn i1 h1] at hmap
      dsimp only at hmap
      have hppn2 : ((s.mem.zero s.next_frame).write (s.mem pt.root_ppn i0).ppn i1
          (PageTableEntry.new s.next_frame PTEFlags.V) (s.mem pt.root_ppn i0).ppn i1).ppn
          = s.next_frame := by
        rw [mem_write_self, pte_new_V_ppn _ (by omega)]
      rw [hppn2] at hmap
      have hleaf : (s.mem.zero s.next_frame).write (s.mem pt.root_ppn i0).ppn i1
          (PageTableEntry.new s.next_frame PTEFlags.V) s.next_frame i2
          = PageTableEntry.empty := by
        rw [mem_write_ne _ _ (fun hc => absurd hc.1 (Ne.symm (Nat.ne_of_lt hAlt))),
          mem_zero_self]
      rw [hleaf, pte_empty_not_valid] at hmap
      simp only [Bool.false_eq_true, if_false, Option.some.injEq] at hmap
      subst hmap
      dsimp only
      have hr0 : ((s.mem.zero s.next_frame).write (s.mem pt.root_ppn i0).ppn i1
          (PageTableEntry.new s.next_frame PTEFlags.V)).write s.next_frame i2
          (PageTableEntry.new ppn (flags ||| PTEFlags.V)) pt.root_ppn i0
          = s.mem pt.root_ppn i0 := by
        rw [mem_write_ne _ _ (fun hc => absurd hc.1 (Nat.ne_of_lt hroot_lt)),
          mem_write_ne _ _ (fun hc => hAnr hc.1.symm),
          mem_zero_ne _ _ (Nat.ne_of_lt hroot_lt)]
      rw [hr0, h0]
      have hr1 : ((s.mem.zero s.next_frame).write (s.mem pt.root_ppn i0).ppn i1
          (PageTableEntry.new s.next_frame PTEFlags.V)).write s.next_frame i2
          (PageTableEntry.new ppn (flags ||| PTEFlags.V)) (s.mem pt.root_ppn i0).ppn i1
          = PageTableEntry.new s.next_frame PTEFlags.V := by
        rw [mem_write_ne _ _ (fun hc => absurd hc.1 (Nat.ne_of_lt hAlt)),
          mem_write_self]
      rw [hr1, pte_new_V_is_valid, pte_new_V_ppn _ (by omega)]
      simp [mem_write_self]
  | false =>
    rw [step_create_of_invalid s pt pt.root_ppn i0 h0] at hmap
    dsimp only at hmap
    have hppn1 : ((s.mem.zero s.next_frame).write pt.root_ppn i0
        (PageTableEntry.new s.next_frame PTEFlags.V) pt.root_ppn i0).ppn
        = s.next_frame := by
      rw [mem_write_self, pte_new_V_ppn _ (by omega)]
    rw [hppn1] at hmap
    have h1f : ((s.mem.zero s.next_frame).write pt.root_ppn i0
        (PageTableEntry.new s.next_frame PTEFlags.V) s.next_frame i1).is_valid = false := by
      rw [mem_write_ne _ _ (fun hc => absurd hc.1 (Ne.symm (Nat.ne_of_lt hroot_lt))),
        mem_zero_self, pte_empty_not_valid]
    rw [step_create_of_invalid _ _ _ _ h1f] at hmap
    dsimp only at hmap
    have hppn2 : ((((s.mem.zero s.next_frame).write pt.root_ppn i0
        (PageTableEntry.new s.next_frame PTEFlags.V)).zero (s.next_frame + 1)).write
        s.next_frame i1 (PageTableEntry.new (s.next_frame + 1) PTEFlags.V)
        s.next_frame i1).ppn = s.next_frame + 1 := by
      rw [mem_write_self, pte_new_V_ppn _ (by omega)]
    rw [hppn2] at hmap
    have hleaf : (((s.mem.zero s.next_frame).write pt.root_ppn i0
        (PageTableEntry.new s.next_frame PTEFlags.V)).zero (s.next_frame + 1)).write
        s.next_frame i1 (PageTableEntry.new (s.next_frame + 1) PTEFlags.V)
        (s.next_frame + 1) i2 = PageTableEntry.empty := by
      rw [mem_write_ne _ _ (fun hc => absurd hc.1 (by omega)), mem_zero_self]
    rw [hleaf, pte_empty_not_valid] at hmap
    simp only [Bool.false_eq_true, if_false, Option.some.injEq] at hmap
    subst hmap
    dsimp only
    have hr0 : ((((s.mem.zero s.next_frame).write pt.root_ppn i0
        (PageTableEntry.new s.next_frame PTEFlags.V)).zero (s.next_frame + 1)).write
        s.next_frame i1 (PageTableEntry.new (s.next_frame + 1) PTEFlags.V)).write
        (s.next_frame + 1) i2 (PageTableEntry.new ppn (flags ||| PTEFlags.V))
        pt.root_ppn i0 = PageTableEntry.new s.next_frame PTEFlags.V := by
      rw [mem_write_ne _ _ (fun hc => absurd hc.1 (by omega)),
        mem_write_ne _ _ (fun hc => absurd hc.1 (Nat.ne_of_lt hroot_lt)),
        mem_zero_ne _ _ (by omega), mem_write_self]
    rw [hr0, pte_new_V_is_valid, pte_new_V_ppn _ (by omega)]
    have hr1 : ((((s.mem.zero s.next_frame).write pt.root_ppn i0
        (PageTableEntry.new s.next_frame PTEFlags.V)).zero (s.next_frame + 1)).write
        s.next_frame i1 (PageTableEntry.new (s.next_frame + 1) PTEFlags.V)).write
        (s.next_frame + 1) i2 (PageTableEntry.new ppn (flags ||| PTEFlags.V))
        s.next_frame i1 = PageTableEntry.new (s.next_frame + 1) PTEFlags.V := by
      rw [mem_write_ne _ _ (fun hc => absurd hc.1 (by omega)), mem_write_self]
    rw [hr1, pte_new_V_is_valid, pte_new_V_ppn _ (by omega)]
    simp [mem_write_self]

/-- C2 counterexample: the claim "flags are exactly the supplied flags"
fails because map always ORs the valid bit into the stored entry: mapping
with flags R|W = 6 reads back flags 7; and the claim "ppn is exactly the
supplied ppn" fails for a ppn at or above 2 ^ 44: mapping ppn 2 ^ 44 + 9
reads back ppn 9 (silently truncated). -/
theorem map_then_translate_cex :
    demoMap = some (demoS2, demoPT2) ∧
    (PTEFlags.R ||| PTEFlags.W : Nat) = 6 ∧
    (demoPT2.translate demoS2.mem 0).map (fun e => e.flags) = some 7 ∧
    (7 : Nat) ≠ 6 ∧
    demoMapBig = some demoResBig ∧
    (demoResBig.2.translate demoResBig.1.mem 2).map (fun e => e.ppn) = some 9 ∧
    (9 : Nat) ≠ 2 ^ 44 + 9 := by
  exact ⟨rfl, rfl, rfl, by norm_num, rfl, by decide, by norm_num⟩

/-- Witness for C2: the spec scenario — on the fresh demo table, map
virtual page 0 to physical page 0x10 = 16 with flags R|W; translate(0)
yields the stored entry with ppn 16, readable and writable true,
executable false (and flags 6 with the valid bit set, i.e. 7). -/
theorem map_then_translate_returns_mapped_entry_witness :
    WF demoS1 demoPT1 ∧ (16 : Nat) < 2 ^ 44 ∧ (PTEFlags.R ||| PTEFlags.W : Nat) < 2 ^ 8 ∧
    demoPT1.map demoS1 0 16 (PTEFlags.R ||| PTEFlags.W) = some (demoS2, demoPT2) ∧
    demoPT2.translate demoS2.mem 0 =
      some (PageTableEntry.new 16 ((PTEFlags.R ||| PTEFlags.W) ||| PTEFlags.V)) ∧
    (PageTableEntry.new 16 ((PTEFlags.R ||| PTEFlags.W) ||| PTEFlags.V)).ppn = 16 ∧
    (PageTableEntry.new 16 ((PTEFlags.R ||| PTEFlags.W) ||| PTEFlags.V)).readable = true ∧
    (PageTableEntry.new 16 ((PTEFlags.R ||| PTEFlags.W) ||| PTEFlags.V)).writable = true ∧
    (PageTableEntry.new 16 ((PTEFlags.R ||| PTEFlags.W) ||| PTEFlags.V)).executable = false := by
  have hwf : WF demoS1 demoPT1 := by
    refine ⟨by decide, by decide, ?_⟩
    intro p i h
    have he : demoS1.mem p i = PageTableEntry.empty := by
      simp [demoS1, demoNew, PageTable.new, frame_alloc, demoS0, Mem.zero, ite_self]
    rw [he, pte_empty_not_valid] at h
    exact absurd h (by simp)
  have hres := map_then_translate_returns_mapped_entry demoS1 demoPT1 0 16
    (PTEFlags.R ||| PTEFlags.W) (demoS2, demoPT2) hwf (by norm_num) (by decide) rfl
  exact ⟨hwf, by norm_num, by decide, rfl, hres.1, by decide, by decide, by decide, by decide⟩

theorem tbb_loop_ge (m : Mem) (pt : PageTable) (fuel start stop : Nat)
    (h : stop ≤ start) : tbb_loop m pt fuel start stop = some [] := by
  cases fuel <;> simp [tbb_loop, Nat.not_lt.mpr h]

theorem sliceSpec_shift (m : Mem) (pt : PageTable) (start stop j : Nat) :
    sliceSpec m pt start stop (j + 1) =
      sliceSpec m pt ((start / PAGE_SIZE + 1) * PAGE_SIZE) stop j := by
  unfold sliceSpec
  have hdiv : (start / PAGE_SIZE + 1) * PAGE_SIZE / PAGE_SIZE = start / PAGE_SIZE + 1 := by
    simp only [PAGE_SIZE]; omega
  have hmod : (start / PAGE_SIZE + 1) * PAGE_SIZE % PAGE_SIZE = 0 := by
    simp only [PAGE_SIZE]; omega
  have hv : start / PAGE_SIZE + (j + 1) = start / PAGE_SIZE + 1 + j := by omega
  rw [hdiv, hmod, hv]
  simp [ite_self]

theorem sliceSpecList_cons (m : Mem) (pt : PageTable) (start stop : Nat)
    (hcross : (start / PAGE_SIZE + 1) * PAGE_SIZE < stop) :
    sliceSpecList m pt start stop =
      sliceSpec m pt start stop 0 ::
        sliceSpecList m pt ((start / PAGE_SIZE + 1) * PAGE_SIZE) stop := by
  unfold sliceSpecList
  have hdiv : (start / PAGE_SIZE + 1) * PAGE_SIZE / PAGE_SIZE = start / PAGE_SIZE + 1 := by
    simp only [PAGE_SIZE]; omega
  have hk : (stop - 1) / PAGE_SIZE - start / PAGE_SIZE =
      (stop - 1) / PAGE_SIZE - ((start / PAGE_SIZE + 1) * PAGE_SIZE) / PAGE_SIZE + 1 := by
    rw [hdiv]
    have h3 : start / PAGE_SIZE + 1 ≤ (stop - 1) / PAGE_SIZE := by
      simp only [PAGE_SIZE] at hcross ⊢
      omega
    omega
  rw [hk, List.range_succ_eq_map, List.map_cons, List.map_map]
  congr 1
  apply List.map_congr_left
  intro x _
  simpa using sliceSpec_shift m pt start stop x

theorem sliceSpecList_single (m : Mem) (pt : PageTable) (start stop : Nat)
    (h1 : start < stop) (hend : stop ≤ (start / PAGE_SIZE + 1) * PAGE_SIZE) :
    sliceSpecList m pt start stop = [sliceSpec m pt start stop 0] := by
  unfold sliceSpecList
  have hk : (stop - 1) / PAGE_SIZE - start / PAGE_SIZE = 0 := by
    simp only [PAGE_SIZE] at hend ⊢
    omega
  rw [hk]
  rfl

theorem tbb_loop_spec (m : Mem) (pt : PageTable) :
    ∀ fuel start stop, start < stop → stop - start ≤ fuel →
      (∀ v, start / PAGE_SIZE ≤ v → v ≤ (stop - 1) / PAGE_SIZE →
        (pt.translate m v).isSome = true) →
      tbb_loop m pt fuel start stop = some (sliceSpecList m pt start stop) := by
  intro fuel
  induction fuel with
  | zero => intro start stop h1 h2 _; omega
  | succ fuel ih =>
    intro start stop h1 h2 hmapped
    have hv0le : start / PAGE_SIZE ≤ (stop - 1) / PAGE_SIZE :=
      Nat.div_le_div_right (by omega)
    have hv0 := hmapped (start / PAGE_SIZE) (Nat.le_refl _) hv0le
    obtain ⟨pte, hpte⟩ := Option.isSome_iff_exists.mp hv0
    simp only [tbb_loop, if_pos h1, hpte]
    have hstart2 : start < (start / PAGE_SIZE + 1) * PAGE_SIZE := by
      simp only [PAGE_SIZE]; omega
    by_cases hcross : (start / PAGE_SIZE + 1) * PAGE_SIZE < stop
    · rw [Nat.min_eq_left (Nat.le_of_lt hcross)]
      have hdiv : (start / PAGE_SIZE + 1) * PAGE_SIZE / PAGE_SIZE = start / PAGE_SIZE + 1 := by
        simp only [PAGE_SIZE]; omega
      have hrec := ih ((start / PAGE_SIZE + 1) * PAGE_SIZE) stop hcross (by omega)
        (fun v hv1 hv2 => hmapped v (by rw [hdiv] at hv1; omega) hv2)
      rw [hrec]
      rw [sliceSpecList_cons m pt start stop hcross]
      have hmod : (start / PAGE_SIZE + 1) * PAGE_SIZE % PAGE_SIZE = 0 := by
        simp only [PAGE_SIZE]; omega
      simp [sliceSpec, hpte, hmod, Nat.min_eq_left (Nat.le_of_lt hcross)]
    · rw [Nat.min_eq_right (Nat.le_of_not_lt hcross)]
      rw [tbb_loop_ge m pt fuel stop stop (Nat.le_refl _)]
      rw [sliceSpecList_single m pt start stop h1 (Nat.le_of_not_lt hcross)]
      by_cases hz : stop % PAGE_SIZE = 0 <;>
        simp [sliceSpec, hpte, hz, Nat.min_eq_right (Nat.le_of_not_lt hcross)]

theorem sliceSpecList_sum (m : Mem) (pt : PageTable) :
    ∀ n start stop, start < stop → stop - start ≤ n →
      ((sliceSpecList m pt start stop).map fun sl => sl.hi - sl.lo).sum = stop - start := by
  intro n
  induction n with
  | zero => intro start stop h1 h2; omega
  | succ n ih =>
    intro start stop h1 h2
    have hstart2 : start < (start / PAGE_SIZE + 1) * PAGE_SIZE := by
      simp only [PAGE_SIZE]; omega
    by_cases hcross : (start / PAGE_SIZE + 1) * PAGE_SIZE < stop
    · rw [sliceSpecList_cons m pt start stop hcross, List.map_cons, List.sum_cons,
        ih ((start / PAGE_SIZE + 1) * PAGE_SIZE) stop hcross (by omega)]
      have hmod : (start / PAGE_SIZE + 1) * PAGE_SIZE % PAGE_SIZE = 0 := by
        simp only [PAGE_SIZE]; omega
      have hhead : sliceSpec m pt start stop 0 =
          ⟨((pt.translate m (start / PAGE_SIZE)).getD PageTableEntry.empty).ppn,
           start % PAGE_SIZE, PAGE_SIZE⟩ := by
        simp [sliceSpec, hmod, Nat.min_eq_left (Nat.le_of_lt hcross)]
      rw [hhead]
      show PAGE_SIZE - start % PAGE_SIZE + (stop - (start / PAGE_SIZE + 1) * PAGE_SIZE) =
        stop - start
      simp only [PAGE_SIZE] at hstart2 hcross ⊢
      omega
    · rw [sliceSpecList_single m pt start stop h1 (Nat.le_of_not_lt hcross)]
      have hhead : sliceSpec m pt start stop 0 =
          ⟨((pt.translate m (start / PAGE_SIZE)).getD PageTableEntry.empty).ppn,
           start % PAGE_SIZE,
           if stop % PAGE_SIZE = 0 then PAGE_SIZE else stop % PAGE_SIZE⟩ := by
        simp [sliceSpec, Nat.min_eq_right (Nat.le_of_not_lt hcross)]
      rw [hhead]
      show (if stop % PAGE_SIZE = 0 then PAGE_SIZE else stop % PAGE_SIZE) -
        start % PAGE_SIZE + 0 = stop - start
      by_cases hz : stop % PAGE_SIZE = 0
      · rw [if_pos hz]
        simp only [PAGE_SIZE] at hstart2 hcross hz ⊢
        omega
      · rw [if_neg hz]
        simp only [PAGE_SIZE] at hstart2 hcross hz ⊢
        omega

theorem sliceSpecList_bounds (m : Mem) (pt : PageTable) :
    ∀ n start stop, start < stop → stop - start ≤ n →
      ∀ sl ∈ sliceSpecList m pt start stop, sl.lo < sl.hi ∧ sl.hi ≤ PAGE_SIZE := by
  intro n
  induction n with
  | zero => intro start stop h1 h2; omega
  | succ n ih =>
    intro start stop h1 h2 sl hsl
    have hstart2 : start < (start / PAGE_SIZE + 1) * PAGE_SIZE := by
      simp only [PAGE_SIZE]; omega
    by_cases hcross : (start / PAGE_SIZE + 1) * PAGE_SIZE < stop
    · rw [sliceSpecList_cons m pt start stop hcross] at hsl
      rcases List.mem_cons.mp hsl with h | h
      · have hmod : (start / PAGE_SIZE + 1) * PAGE_SIZE % PAGE_SIZE = 0 := by
          simp only [PAGE_SIZE]; omega
        have hhead : sliceSpec m pt start stop 0 =
            ⟨((pt.translate m (start / PAGE_SIZE)).getD PageTableEntry.empty).ppn,
             start % PAGE_SIZE, PAGE_SIZE⟩ := by
          simp [sliceSpec, hmod, Nat.min_eq_left (Nat.le_of_lt hcross)]
        rw [h, hhead]
        show start % PAGE_SIZE < PAGE_SIZE ∧ PAGE_SIZE ≤ PAGE_SIZE
        constructor
        · simp only [PAGE_SIZE]; omega
        · exact Nat.le_refl _
      · exact ih ((start / PAGE_SIZE + 1) * PAGE_SIZE) stop hcross (by omega) sl h
    · rw [sliceSpecList_single m pt start stop h1 (Nat.le_of_not_lt hcross)] at hsl
      rcases List.mem_cons.mp hsl with h | h
      · by_cases hz : stop % PAGE_SIZE = 0
        · have hhead : sliceSpec m pt start stop 0 =
              ⟨((pt.translate m (start / PAGE_SIZE)).getD PageTableEntry.empty).ppn,
               start % PAGE_SIZE, PAGE_SIZE⟩ := by
            simp [sliceSpec, Nat.min_eq_right (Nat.le_of_not_lt hcross), hz]
          rw [h, hhead]
          show start % PAGE_SIZE < PAGE_SIZE ∧ PAGE_SIZE ≤ PAGE_SIZE
          constructor
          · simp only [PAGE_SIZE]; omega
          · exact Nat.le_refl _
        · have hhead : sliceSpec m pt start stop 0 =
              ⟨((pt.translate m (start / PAGE_SIZE)).getD PageTableEntry.empty).ppn,
               start % PAGE_SIZE, stop % PAGE_SIZE⟩ := by
            simp [sliceSpec, Nat.min_eq_right (Nat.le_of_not_lt hcross), hz]
          rw [h, hhead]
          show start % PAGE_SIZE < stop % PAGE_SIZE ∧ stop % PAGE_SIZE ≤ PAGE_SIZE
          constructor
          · simp only [PAGE_SIZE] at hcross hz ⊢; omega
          · simp only [PAGE_SIZE] at hz ⊢; omega
      · exact absurd h (List.not_mem_nil sl)

/-- C5 counterexample: a byte range that ends exactly at the top of the
64-bit address space defeats the claim. With the topmost virtual page
fully mapped (topPageMem), the range of the last 4096 bytes (ptr =
2 ^ 64 - 4096, len = 4096) crosses 0 page boundaries, so the claim demands
exactly 1 slice; but the usize end-address computation wraps to 0 and the
loop exits immediately, returning an empty sequence. -/
theorem translated_byte_buffer_cex :
    ((PageTable.from_token (8 * 2 ^ 60)).translate topPageMem (2 ^ 52 - 1)).isSome = true ∧
    (0 : Nat) < 4096 ∧
    translated_byte_buffer topPageMem (8 * 2 ^ 60) (2 ^ 64 - 4096) 4096 = some [] ∧
    (some ([] : List ByteSlice)).map List.length ≠ some 1 := by
  refine ⟨by decide, by norm_num, rfl, by simp⟩

/-- C5 (amended): for every page table in which all touched pages are
mapped and every byte range of positive length that does not wrap the
64-bit address space (ptr + len < 2 ^ 64) and crosses k page boundaries,
translated_byte_buffer returns exactly the sliceSpecList sequence: k + 1
slices in ascending page order (slice j views the physical page of virtual
page ptr / PAGE_SIZE + j), each clipped to page boundaries (so confined to
a single physical page, offsets within [0, PAGE_SIZE]), non-empty, and
with slice lengths summing to the requested length. -/
theorem translated_byte_buffer_spec (m : Mem) (token ptr len : Nat)
    (sl : ByteSlice)
    (hlen : 0 < len) (hwrap : ptr + len < 2 ^ 64)
    (hmapped : ∀ v, ptr / PAGE_SIZE ≤ v → v ≤ (ptr + len - 1) / PAGE_SIZE →
      ((PageTable.from_token token).translate m v).isSome = true)
    (hsl : sl ∈ sliceSpecList m (PageTable.from_token token) ptr (ptr + len)) :
    translated_byte_buffer m token ptr len =
      some (sliceSpecList m (PageTable.from_token token) ptr (ptr + len)) ∧
    (sliceSpecList m (PageTable.from_token token) ptr (ptr + len)).length =
      (ptr + len - 1) / PAGE_SIZE - ptr / PAGE_SIZE + 1 ∧
    ((sliceSpecList m (PageTable.from_token token) ptr (ptr + len)).map
      fun s2 => s2.hi - s2.lo).sum = len ∧
    sl.lo < sl.hi ∧ sl.hi ≤ PAGE_SIZE := by
  have hchar : translated_byte_buffer m token ptr len =
      some (sliceSpecList m (PageTable.from_token token) ptr (ptr + len)) := by
    unfold translated_byte_buffer
    rw [Nat.mod_eq_of_lt hwrap]
    exact tbb_loop_spec m (PageTable.from_token token) len ptr (ptr + len)
      (by omega) (by omega) hmapped
  have hsum := sliceSpecList_sum m (PageTable.from_token token) len ptr (ptr + len)
    (by omega) (by omega)
  have hbnd := sliceSpecList_bounds m (PageTable.from_token token) len ptr (ptr + len)
    (by omega) (by omega) sl hsl
  refine ⟨hchar, by simp [sliceSpecList], ?_, hbnd.1, hbnd.2⟩
  rw [hsum]
  omega

/-- Witness for C5 on the demo table with pages 0 and 1 mapped to physical
pages 16 and 17: the range [4000, 4200) crosses one page boundary and
splits into the two slices [4000, 4096) of page 16 and [0, 104) of page
17, whose lengths 96 + 104 sum to 200. -/
theorem translated_byte_buffer_spec_witness :
    (0 : Nat) < 200 ∧ (4000 : Nat) + 200 < 2 ^ 64 ∧
    (⟨17, 0, 104⟩ : ByteSlice) ∈
      sliceSpecList demoS3.mem (PageTable.from_token demoPT3.token) 4000 (4000 + 200) ∧
    (translated_byte_buffer demoS3.mem demoPT3.token 4000 200 =
      some (sliceSpecList demoS3.mem (PageTable.from_token demoPT3.token) 4000 (4000 + 200)) ∧
    (sliceSpecList demoS3.mem (PageTable.from_token demoPT3.token) 4000 (4000 + 200)).length =
      (4000 + 200 - 1) / PAGE_SIZE - 4000 / PAGE_SIZE + 1 ∧
    ((sliceSpecList demoS3.mem (PageTable.from_token demoPT3.token) 4000 (4000 + 200)).map
      fun s2 => s2.hi - s2.lo).sum = 200 ∧
    (⟨17, 0, 104⟩ : ByteSlice).lo < (⟨17, 0, 104⟩ : ByteSlice).hi ∧
    (⟨17, 0, 104⟩ : ByteSlice).hi ≤ PAGE_SIZE) := by
  refine ⟨by norm_num, by norm_num, by decide, ?_⟩
  refine translated_byte_buffer_spec demoS3.mem demoPT3.token 4000 200 ⟨17, 0, 104⟩
    (by norm_num) (by norm_num) ?_ (by decide)
  intro v h1 h2
  have hv : v = 0 ∨ v = 1 := by
    have he : (4000 + 200 - 1) / PAGE_SIZE = 1 := by simp only [PAGE_SIZE]
    have h0 : (4000 : Nat) / PAGE_SIZE = 0 := by simp only [PAGE_SIZE]
    rw [he] at h2
    omega
  rcases hv with hv | hv <;> subst hv <;> decide

end Kernel
